import Mathlib

/-!
Verification of the text-normalization and chunk-matching core of
`compare-pdfs.py` (jeamy/compare2pdfs), shallowly embedded over `List Char`.
Text is modelled as a list of Unicode scalar values; every Python `str`
operation used by the core is reproduced as an executable Lean function.
-/

/-- Text is modelled as a list of characters (Unicode scalar values),
mirroring a Python 3 `str` as a sequence of code points. -/
abbrev Str := List Char

/-- The characters of a Lean string literal, used to write concrete inputs. -/
def strLit (s : String) : Str := s.data

/-- Python whitespace, as recognised by `str.split()` / `str.strip()` /
`str.isspace()` and by `\s` in a Unicode regex: TAB..CR, FS..US, SPACE,
NEL, NBSP, OGHAM SPACE, the U+2000..U+200A spaces, LS, PS, NNBSP, MMSP
and IDEOGRAPHIC SPACE. -/
def pyIsSpace (c : Char) : Bool :=
  (9 ≤ c.toNat && c.toNat ≤ 13) || (28 ≤ c.toNat && c.toNat ≤ 31) ||
  c.toNat = 32 || c.toNat = 0x85 || c.toNat = 0xA0 || c.toNat = 0x1680 ||
  (0x2000 ≤ c.toNat && c.toNat ≤ 0x200A) || c.toNat = 0x2028 ||
  c.toNat = 0x2029 || c.toNat = 0x202F || c.toNat = 0x205F || c.toNat = 0x3000

/-- Split on every single whitespace character, keeping empty fields
(the fields between two adjacent separators). Auxiliary for `pySplit`. -/
def pySplitP : Str → List Str
  | [] => [[]]
  | c :: cs =>
    if pyIsSpace c then [] :: pySplitP cs
    else
      match pySplitP cs with
      | [] => [[c]]
      | h :: t => (c :: h) :: t

/-- Python `str.split()` with no separator: split on runs of whitespace,
discarding empty fields. -/
def pySplit (s : Str) : List Str := (pySplitP s).filter (fun w => !w.isEmpty)

/-- Python `' '.join(ws)`: interleave a single space between the pieces. -/
def joinSpace : List Str → Str
  | [] => []
  | [w] => w
  | w :: w2 :: ws => w ++ ' ' :: joinSpace (w2 :: ws)

/-- Python `' '.join(text.split())`: collapse whitespace runs to single
spaces and trim the ends. -/
def collapseWs (s : Str) : Str := joinSpace (pySplit s)

/-- Strip leading Python whitespace (the leading half of `str.strip()`). -/
def trimStart (s : Str) : Str := s.dropWhile pyIsSpace

/-- Strip trailing Python whitespace (the trailing half of `str.strip()`). -/
def trimEnd (s : Str) : Str := (s.reverse.dropWhile pyIsSpace).reverse

/-- Python `str.strip()`. -/
def pyStrip (s : Str) : Str := trimEnd (trimStart s)

/-- The character class of `re.sub(r'[\x00-\x09\x0b-\x1f\x7f\x80-\xff]', '', text)`
in `normalize_for_comparison`: C0 controls except LF, DEL, and the code
points U+0080..U+00FF. -/
def stripSet (c : Char) : Bool :=
  c.toNat ≤ 9 || (11 ≤ c.toNat && c.toNat ≤ 31) || c.toNat = 127 ||
  (128 ≤ c.toNat && c.toNat ≤ 255)

/-- Step 1 of `normalize_for_comparison`: delete every character of the
`stripSet` class. -/
def stripInvalid (s : Str) : Str := s.filter (fun c => !stripSet c)

/-- Python `str.lower()` restricted to code points below 0x100 (ASCII
`A`-`Z` and the Latin-1 uppercase row; `×` U+00D7 has no case). Code
points at or above 0x100 are left unchanged by this model; inside
`normalize_for_comparison` the lowering step only ever sees text whose
U+0080..U+00FF characters were already stripped, so only the ASCII row is
exercised there. -/
def pyLowerChar (c : Char) : Char :=
  if 65 ≤ c.toNat ∧ c.toNat ≤ 90 then Char.ofNat (c.toNat + 32)
  else if 192 ≤ c.toNat ∧ c.toNat ≤ 222 ∧ c.toNat ≠ 215 then Char.ofNat (c.toNat + 32)
  else c

/-- The character class of `re.sub(r'[–—―­]', '-', text)`: en dash U+2013,
em dash U+2014, horizontal bar U+2015 and soft hyphen U+00AD. -/
def isDashChar (c : Char) : Bool :=
  c.toNat = 0x2013 || c.toNat = 0x2014 || c.toNat = 0x2015 || c.toNat = 0xAD

/-- Step 3 of `normalize_for_comparison`: replace each dash variant by
a plain hyphen. -/
def dashToHyphen (c : Char) : Char := if isDashChar c then '-' else c

/-- The character class of `re.sub(r'[­​‌‍]', '', text)`: soft hyphen
U+00AD, zero-width space U+200B, ZWNJ U+200C and ZWJ U+200D. -/
def isZeroWidth (c : Char) : Bool :=
  c.toNat = 0xAD || c.toNat = 0x200B || c.toNat = 0x200C || c.toNat = 0x200D

/-- The bullet class of `re.sub(r'^[\*•‣◦⁃∙]\s*', '', text)`: `*`, U+2022,
U+2023, U+25E6, U+2043 and U+2219. -/
def isBulletChar (c : Char) : Bool :=
  c = '*' || c.toNat = 0x2022 || c.toNat = 0x2023 || c.toNat = 0x25E6 ||
  c.toNat = 0x2043 || c.toNat = 0x2219

/-- Step 6 of `normalize_for_comparison`: remove one leading bullet glyph
together with the whitespace run following it (the regex is anchored, so
at most one substitution happens). -/
def stripLeadingBullet : Str → Str
  | [] => []
  | c :: cs => if isBulletChar c then cs.dropWhile pyIsSpace else c :: cs

/-- The punctuation class of `re.sub(r'[,;:"""()]', '', text)`; in the
source all three quote characters are the plain ASCII `"`, so the class is
comma, semicolon, colon, double quote and parentheses. -/
def isRemovedPunct (c : Char) : Bool :=
  c = ',' || c = ';' || c = ':' || c = '"' || c = '(' || c = ')'

/-- Step 8 of `normalize_for_comparison`, `re.sub(r'^[0-9]+\.', '', text)`:
remove one leading run of ASCII digits when it is immediately followed by
a period (anchored, so at most one substitution per call). -/
def stripLeadingNum (s : Str) : Str :=
  if s.takeWhile (fun c => c.isDigit) ≠ [] then
    match s.drop (s.takeWhile (fun c => c.isDigit)).length with
    | '.' :: rest => rest
    | _ => s
  else s

/-- `normalize_for_comparison` from `compare-pdfs.py`: strip the invalid
byte range, lowercase, unify dashes, drop zero-width characters, strip one
leading bullet, collapse whitespace, drop quote/comma/semicolon/colon/
parenthesis punctuation, strip one leading `<digits>.` prefix, and trim. -/
def normalize_for_comparison (s : Str) : Str :=
  let t1 := stripInvalid s
  let t2 := t1.map pyLowerChar
  let t3 := t2.map dashToHyphen
  let t4 := t3.filter (fun c => !isZeroWidth c)
  let t5 := stripLeadingBullet t4
  let t6 := collapseWs t5
  let t7 := t6.filter (fun c => !isRemovedPunct c)
  let t8 := stripLeadingNum t7
  pyStrip t8

/-- Characters that Python `str.splitlines()` treats as line boundaries
(LF, VT, FF, CR, FS, GS, RS, NEL, LS, PS). -/
def isLineBreak (c : Char) : Bool :=
  c.toNat = 10 || c.toNat = 11 || c.toNat = 12 || c.toNat = 13 ||
  c.toNat = 28 || c.toNat = 29 || c.toNat = 30 || c.toNat = 0x85 ||
  c.toNat = 0x2028 || c.toNat = 0x2029

/-- Worker for `pySplitlines`; the accumulator holds the current line
reversed. -/
def splitlinesGo : Str → Str → List Str
  | [], acc => if acc.isEmpty then [] else [acc.reverse]
  | '\r' :: '\n' :: rest, acc => acc.reverse :: splitlinesGo rest []
  | c :: rest, acc =>
    if isLineBreak c then acc.reverse :: splitlinesGo rest []
    else splitlinesGo rest (c :: acc)

/-- Python `str.splitlines()`: split at line boundaries, treating `\r\n`
as one boundary and emitting no trailing empty line. -/
def pySplitlines (s : Str) : List Str := splitlinesGo s []

/-- Python `text.split('\n')`: split at every newline, keeping empty
fields. -/
def splitOnNl : Str → List Str
  | [] => [[]]
  | c :: cs =>
    if c = '\n' then [] :: splitOnNl cs
    else
      match splitOnNl cs with
      | [] => [[c]]
      | h :: t => (c :: h) :: t

/-- `re.sub(r'•', '\n•', text)` in `extract_sentences`: put a newline in
front of every bullet U+2022. -/
def bulletBreak (s : Str) : Str :=
  s.flatMap fun c => if c.toNat = 0x2022 then ['\n', c] else [c]

/-- The uppercase class `[A-ZÄÖÜ]` of the sentence-splitting regex. -/
def isUpperDE (c : Char) : Bool :=
  (65 ≤ c.toNat && c.toNat ≤ 90) || c.toNat = 0xC4 || c.toNat = 0xD6 || c.toNat = 0xDC

/-- `re.sub(r'([.!?]) ([A-ZÄÖÜ])', r'\1\n\2', text)` in
`extract_sentences`: scanning left to right, replace the space between a
sentence-terminal mark and a following uppercase letter by a newline; the
scan resumes after the uppercase letter, mirroring non-overlapping
regex substitution. -/
def sentenceBreak : Str → Str
  | c1 :: c2 :: c3 :: rest =>
    if (c1 = '.' || c1 = '!' || c1 = '?') && c2 = ' ' && isUpperDE c3 then
      c1 :: '\n' :: c3 :: sentenceBreak rest
    else
      c1 :: sentenceBreak (c2 :: c3 :: rest)
  | s => s

/-- Does the accumulated candidate end in sentence-terminal punctuation?
Models `re.search(r'[.!?]$', current_sentence)`; candidates contain no
newline, so `$` means the final character. -/
def endsTermB (s : Str) : Bool :=
  match s.getLast? with
  | some c => c = '.' || c = '!' || c = '?'
  | none => false

/-- The candidate units of `extract_sentences` before the merge loop:
join physical lines with spaces, collapse whitespace, break before
bullets and after sentence ends, then split on the inserted newlines. -/
def candidatesOf (text : Str) : List Str :=
  splitOnNl (sentenceBreak (bulletBreak (collapseWs (joinSpace (pySplitlines text)))))

/-- One iteration of the merge loop of `extract_sentences`: state is
`(processed_sentences, current_sentence)`. Whitespace-only candidates are
skipped; a current sentence not ending in terminal punctuation absorbs
the next candidate; otherwise it is emitted and the candidate starts a
new current sentence. -/
def mergeStep (st : List Str × Str) (sentence : Str) : List Str × Str :=
  if pyStrip sentence = [] then st
  else if st.2 ≠ [] ∧ ¬ endsTermB st.2 = true then (st.1, st.2 ++ ' ' :: sentence)
  else if st.2 ≠ [] then (st.1 ++ [st.2], sentence)
  else (st.1, sentence)

/-- `extract_sentences` from `compare-pdfs.py`. -/
def extract_sentences (text : Str) : List Str :=
  let st := (candidatesOf text).foldl mergeStep ([], [])
  if st.2 ≠ [] then st.1 ++ [st.2] else st.1

/-- `get_chunks` from `compare-pdfs.py`: all windows of `chunk_size`
consecutive words of the sentence, paired with the window at the same
start index in the word list of the normalized sentence (Python slicing
truncates silently when the normalized word list is shorter). -/
def get_chunks (text : Str) (chunk_size : Nat) : List (Str × Str) :=
  let words := pySplit text
  let norm_words := pySplit (normalize_for_comparison text)
  (List.range (words.length + 1 - chunk_size)).map fun i =>
    (joinSpace ((words.drop i).take chunk_size),
     joinSpace ((norm_words.drop i).take chunk_size))

/-- Python `dict` assignment `d[k] = v`: replace the value if the key is
present (keeping its position), else append the new binding. -/
def dictInsert {β : Type} (d : List (Str × β)) (k : Str) (v : β) : List (Str × β) :=
  if d.any (fun p => decide (p.1 = k)) then
    d.map (fun p => if p.1 = k then (k, v) else p)
  else d ++ [(k, v)]

/-- Python `d.get(k)` / `k in d`: the value bound to the first (unique)
occurrence of the key. -/
def dictGet? {β : Type} (d : List (Str × β)) (k : Str) : Option β :=
  (d.find? (fun p => decide (p.1 = k))).map Prod.snd

/-- Python `d.get(k, v0)`. -/
def dictGetD {β : Type} (d : List (Str × β)) (k : Str) (v0 : β) : β :=
  (dictGet? d k).getD v0

/-- Python `d.keys()` in insertion order. -/
def dictKeys {β : Type} (d : List (Str × β)) : List Str := d.map Prod.fst

/-- The `chunks_map` built by `process_file` in `find_matches`: for every
sentence and every chunk pair, bind the normalized chunk to the original
chunk when the normalized chunk is nonempty; last writer wins. -/
def buildChunksMap (sentences : List Str) : List (Str × Str) :=
  sentences.foldl
    (fun m sentence =>
      (get_chunks sentence 5).foldl
        (fun m oc_nc => if oc_nc.2 ≠ [] then dictInsert m oc_nc.2 oc_nc.1 else m) m)
    []

/-- The `pos_map` of `process_file`: dict comprehension
`{sentence: i for i, sentence in enumerate(sentences)}`; a duplicate
sentence text ends up bound to its last index. -/
def posMapOf (sentences : List Str) : List (Str × Nat) :=
  sentences.enum.foldl (fun d p => dictInsert d p.2 p.1) []

/-- `pos_map[s]` lookup (total on sentences of the document; the default
is never reached there). -/
def posGet (sentences : List Str) (s : Str) : Nat :=
  dictGetD (posMapOf sentences) s 0

/-- Lexicographic comparison of two texts by code point, as Python `<=`
on `str`; models the comparisons done by `sorted`. -/
def lexLe : Str → Str → Bool
  | [], _ => true
  | _ :: _, [] => false
  | a :: as, b :: bs =>
    if a.toNat < b.toNat then true
    else if b.toNat < a.toNat then false
    else lexLe as bs

/-- The ordering relation used to model Python `sorted` on chunk keys. -/
def lexR (a b : Str) : Prop := lexLe a b = true

instance : DecidableRel lexR :=
  fun a b => inferInstanceAs (Decidable (lexLe a b = true))

/-- Python `sorted(keys)`: the ascending reordering of the key list (on
the distinct keys of a dict any stable sort yields this unique order). -/
def sortKeys (l : List Str) : List Str := List.insertionSort lexR l

/-- One accepted Match of `find_matches`: its sequential number, the
normalized chunk key it was found under, the original chunk retrieved
from each document, the first sentence of each document containing that
chunk, and the positional indices of those sentences. -/
structure MatchRec where
  num : Nat
  key : Str
  origChunk1 : Str
  origChunk2 : Str
  sent1 : Str
  sent2 : Str
  idx1 : Nat
  idx2 : Nat
deriving DecidableEq

/-- The mutable state of the matching loop in `find_matches`:
`seen_matches`, the shared `matched_sentences` map (keys only; all values
are 1), the `matches_found` counter, and the accepted matches in emission
order. -/
structure MState where
  seen : List Str
  matched : List Str
  count : Nat
  acc : List MatchRec
deriving DecidableEq

/-- One iteration of `for chunk in sorted(chunks_map1.keys())` in
`find_matches`: skip keys already seen or absent from the second index;
mark the key seen; retrieve both original chunks; re-validate that their
normalizations agree; locate the first sentence of each document
containing its chunk (a failed or empty lookup is skipped, mirroring
Python truthiness of `None` and of the empty string); skip if either
sentence was already matched; otherwise accept. -/
def matchStep (cm1 cm2 : List (Str × Str)) (s1 s2 : List Str)
    (st : MState) (chunk : Str) : MState :=
  if chunk ∈ st.seen ∨ dictGet? cm2 chunk = none then st
  else
    let st1 : MState := { st with seen := chunk :: st.seen }
    let oc1 := dictGetD cm1 chunk []
    let oc2 := dictGetD cm2 chunk []
    if normalize_for_comparison oc1 ≠ normalize_for_comparison oc2 then st1
    else
      let m1 := (s1.find? fun s => decide (oc1 <:+: s)).getD []
      let m2 := (s2.find? fun s => decide (oc2 <:+: s)).getD []
      if m1 = [] ∨ m2 = [] then st1
      else if m1 ∈ st1.matched ∨ m2 ∈ st1.matched then st1
      else
        { st1 with
          matched := m2 :: m1 :: st1.matched,
          count := st1.count + 1,
          acc := st1.acc ++
            [⟨st1.count + 1, chunk, oc1, oc2, m1, m2, posGet s1 m1, posGet s2 m2⟩] }

/-- The matching core of `find_matches`, from the two sentence lists to
the list of accepted matches in emission order. -/
def find_matches_core (s1 s2 : List Str) : List MatchRec :=
  let cm1 := buildChunksMap s1
  let cm2 := buildChunksMap s2
  ((sortKeys (dictKeys cm1)).foldl (matchStep cm1 cm2 s1 s2) ⟨[], [], 0, []⟩).acc

/-- Decimal rendering of the match counter, as Python f-string `{n}`. -/
def natStr (n : Nat) : Str := (Nat.repr n).data

/-- Python truthiness of an optional color name: `None` and the empty
string are falsy. -/
def pyTruthy : Option Str → Bool
  | none => false
  | some s => !s.isEmpty

/-- Python `fg_color or 'standard'`. -/
def orStandard (o : Option Str) : Str :=
  if pyTruthy o then o.getD [] else strLit "standard"

/-- The conditional color line of the report, lines 524-527 of
`compare-pdfs.py`: written exactly when at least one of the two looked-up
colors is truthy; a missing half prints as `standard`. -/
def colorLineFor (label : Str) (fgbg : Option Str × Option Str) : Str :=
  if pyTruthy fgbg.1 || pyTruthy fgbg.2 then
    strLit "Farbe in Datei " ++ label ++ strLit ": " ++ orStandard fgbg.1 ++
    strLit ", Hintergrund: " ++ orStandard fgbg.2 ++ strLit "\n"
  else []

/-- Both color lines of one match block: look each original chunk up
(stripped) in its document color map, defaulting to `(None, None)`. -/
def colorLines (colors1 colors2 : List (Str × (Option Str × Option Str)))
    (oc1 oc2 : Str) : Str :=
  colorLineFor (strLit "1") (dictGetD colors1 (pyStrip oc1) (none, none)) ++
  colorLineFor (strLit "2") (dictGetD colors2 (pyStrip oc2) (none, none))

/-- The context sentences printed before the match:
`for k in range(i-2, i): if k >= 0 and k < len(sentences)`. -/
def ctxBefore (sentences : List Str) (i : Nat) : List Str :=
  (((List.range i).drop (i - 2)).filter (fun k => decide (k < sentences.length))).map
    (fun k => sentences.getD k [])

/-- The context sentences printed after the match:
`for k in range(i+1, i+3): if k < len(sentences)`. -/
def ctxAfter (sentences : List Str) (i : Nat) : List Str :=
  ((List.range' (i + 1) 2).filter (fun k => decide (k < sentences.length))).map
    (fun k => sentences.getD k [])

/-- Indent each context sentence by four spaces, one line each. -/
def indentLines (ls : List Str) : Str :=
  (ls.map (fun l => strLit "    " ++ l ++ strLit "\n")).flatten

/-- One document context section of a match block. -/
def contextBlock (name : Str) (sentences : List Str) (m : Str) (i : Nat) : Str :=
  strLit "Kontext aus \x27" ++ name ++ strLit "\x27:\n" ++
  strLit "-------------------\n" ++
  indentLines (ctxBefore sentences i) ++
  strLit ">>> " ++ m ++ strLit "\n" ++
  indentLines (ctxAfter sentences i)

/-- The full text block appended to the report for one accepted match,
lines 515-557 of `compare-pdfs.py`. -/
def matchBlock (colors1 colors2 : List (Str × (Option Str × Option Str)))
    (name1 name2 : Str) (s1 s2 : List Str) (m : MatchRec) : Str :=
  strLit "=== Übereinstimmung " ++ natStr m.num ++ strLit " ===\n" ++
  strLit "Gefundener Übereinstimmender Text:\n" ++
  strLit ">>> " ++ m.origChunk1 ++ strLit "\n" ++
  colorLines colors1 colors2 m.origChunk1 m.origChunk2 ++
  strLit "\n" ++
  contextBlock name1 s1 m.sent1 m.idx1 ++
  strLit "\n" ++
  contextBlock name2 s2 m.sent2 m.idx2 ++
  strLit "\n\n"

/-- The trailing summary of the report: an explicit no-matches message,
or the count of accepted matches. -/
def summaryText (n : Nat) : Str :=
  if n = 0 then strLit "Keine Übereinstimmungen gefunden.\n"
  else natStr n ++ strLit " einzigartige Übereinstimmungen gefunden.\n"

/-- The full report text produced by `find_matches` for the two extracted
file contents: the output file is created/truncated at the start of the
run, one block is appended per accepted match, and the summary is
appended at the end, so the final file content is this concatenation. -/
def find_matches (colors1 colors2 : List (Str × (Option Str × Option Str)))
    (name1 name2 content1 content2 : Str) : Str :=
  let s1 := extract_sentences content1
  let s2 := extract_sentences content2
  let ms := find_matches_core s1 s2
  (ms.map (matchBlock colors1 colors2 name1 name2 s1 s2)).flatten ++
  summaryText ms.length

/-- Two accepted matches touch four pairwise-different sentence texts:
used to state the exclusivity invariant. -/
def distinctSents (m m2 : MatchRec) : Prop :=
  m.sent1 ≠ m2.sent1 ∧ m.sent1 ≠ m2.sent2 ∧ m.sent2 ≠ m2.sent1 ∧ m.sent2 ≠ m2.sent2

theorem pySplitP_cons_space {c : Char} (h : pyIsSpace c = true) (s : Str) :
    pySplitP (c :: s) = [] :: pySplitP s := by
  conv_lhs => rw [pySplitP]
  rw [if_pos h]

theorem pySplitP_cons_nospace {c : Char} {s hd : Str} {tl : List Str}
    (h : pyIsSpace c = false) (hs : pySplitP s = hd :: tl) :
    pySplitP (c :: s) = (c :: hd) :: tl := by
  conv_lhs => rw [pySplitP]
  rw [if_neg (by simp [h]), hs]

theorem pySplitP_ne_nil (s : Str) : pySplitP s ≠ [] := by
  cases s with
  | nil => simp [pySplitP]
  | cons c cs =>
    by_cases h : pyIsSpace c = true
    · rw [pySplitP_cons_space h]
      simp
    · rcases hcs : pySplitP cs with _ | ⟨hd, tl⟩
      · exact absurd hcs (pySplitP_ne_nil cs)
      · rw [pySplitP_cons_nospace (Bool.eq_false_iff.mpr h) hcs]
        simp

theorem mem_pySplitP {s w : Str} (hw : w ∈ pySplitP s) :
    ∀ c ∈ w, c ∈ s ∧ pyIsSpace c = false := by
  induction s generalizing w with
  | nil =>
    simp [pySplitP] at hw
    simp [hw]
  | cons a as ih =>
    have ih2 : ∀ w, w ∈ pySplitP as → ∀ c ∈ w, c ∈ a :: as ∧ pyIsSpace c = false := by
      intro w hw c hc
      rcases ih hw c hc with ⟨h1, h2⟩
      exact ⟨List.mem_cons_of_mem a h1, h2⟩
    rcases hcs : pySplitP as with _ | ⟨hd, tl⟩
    · exact absurd hcs (pySplitP_ne_nil as)
    · by_cases h : pyIsSpace a = true
      · rw [pySplitP_cons_space h, List.mem_cons] at hw
        rcases hw with hw | hw
        · subst hw
          intro c hc
          exact absurd hc (List.not_mem_nil c)
        · exact ih2 w hw
      · rw [pySplitP_cons_nospace (Bool.eq_false_iff.mpr h) hcs, List.mem_cons] at hw
        rcases hw with hw | hw
        · subst hw
          intro c hc
          rcases List.mem_cons.mp hc with hc | hc
          · subst hc
            exact ⟨List.mem_cons_self _ _, Bool.eq_false_iff.mpr h⟩
          · exact ih2 hd (by rw [hcs]; exact List.mem_cons_self hd tl) c hc
        · exact ih2 w (by rw [hcs]; exact List.mem_cons_of_mem hd hw)

theorem mem_pySplit {s w : Str} (hw : w ∈ pySplit s) :
    (∀ c ∈ w, c ∈ s ∧ pyIsSpace c = false) ∧ w ≠ [] := by
  unfold pySplit at hw
  rw [List.mem_filter] at hw
  refine ⟨mem_pySplitP hw.1, ?_⟩
  have := hw.2
  simpa using this

theorem pySplitP_noSpace {w : Str} (h : ∀ c ∈ w, pyIsSpace c = false) :
    pySplitP w = [w] := by
  induction w with
  | nil => rfl
  | cons c cs ih =>
    have hc : pyIsSpace c = false := h c (List.mem_cons_self _ _)
    have hcs : pySplitP cs = [cs] := ih fun d hd => h d (List.mem_cons_of_mem c hd)
    rw [pySplitP_cons_nospace hc hcs]

theorem pySplitP_append_noSpace {w rest hd : Str} {tl : List Str}
    (hw : ∀ c ∈ w, pyIsSpace c = false) (hr : pySplitP rest = hd :: tl) :
    pySplitP (w ++ rest) = (w ++ hd) :: tl := by
  induction w with
  | nil => simpa using hr
  | cons c cs ih =>
    have hc : pyIsSpace c = false := hw c (List.mem_cons_self _ _)
    have ih2 := ih fun d hd => hw d (List.mem_cons_of_mem c hd)
    rw [List.cons_append, pySplitP_cons_nospace hc ih2, List.cons_append]

theorem pySplit_joinSpace {ws : List Str}
    (h : ∀ w ∈ ws, w ≠ [] ∧ ∀ c ∈ w, pyIsSpace c = false) :
    pySplit (joinSpace ws) = ws := by
  induction ws with
  | nil => rfl
  | cons w rest ih =>
    rcases h w (List.mem_cons_self _ _) with ⟨hne, hnosp⟩
    cases rest with
    | nil =>
      show pySplit w = [w]
      unfold pySplit
      rw [pySplitP_noSpace hnosp]
      cases w with
      | nil => exact absurd rfl hne
      | cons a b => simp
    | cons w2 rest2 =>
      have ih2 : pySplit (joinSpace (w2 :: rest2)) = w2 :: rest2 :=
        ih fun x hx => h x (List.mem_cons_of_mem w hx)
      show pySplit (w ++ ' ' :: joinSpace (w2 :: rest2)) = w :: w2 :: rest2
      rcases hrest : pySplitP (joinSpace (w2 :: rest2)) with _ | ⟨hd, tl⟩
      · exact absurd hrest (pySplitP_ne_nil _)
      · have hsp : pySplitP (' ' :: joinSpace (w2 :: rest2)) =
            [] :: hd :: tl := by
          rw [pySplitP_cons_space (by decide), hrest]
        unfold pySplit
        rw [pySplitP_append_noSpace hnosp hsp, List.append_nil]
        unfold pySplit at ih2
        rw [hrest] at ih2
        cases w with
        | nil => exact absurd rfl hne
        | cons a b =>
          simp only [List.filter_cons] at ih2 ⊢
          simp only [List.isEmpty_cons, Bool.not_false, if_true]
          rw [ih2]

theorem collapseWs_idem (s : Str) : collapseWs (collapseWs s) = collapseWs s := by
  show joinSpace (pySplit (joinSpace (pySplit s))) = joinSpace (pySplit s)
  rw [pySplit_joinSpace]
  intro w hw
  rcases mem_pySplit hw with ⟨h1, h2⟩
  exact ⟨h2, fun c hc => (h1 c hc).2⟩

theorem mem_joinSpace {ws : List Str} {c : Char} (hc : c ∈ joinSpace ws) :
    c = ' ' ∨ ∃ w ∈ ws, c ∈ w := by
  induction ws with
  | nil => simp [joinSpace] at hc
  | cons w rest ih =>
    cases rest with
    | nil =>
      right
      exact ⟨w, List.mem_cons_self _ _, hc⟩
    | cons w2 rest2 =>
      rcases List.mem_append.mp hc with hc | hc
      · exact Or.inr ⟨w, List.mem_cons_self _ _, hc⟩
      · rcases List.mem_cons.mp hc with hc | hc
        · exact Or.inl hc
        · rcases ih hc with hsp | ⟨w', hw', hcw'⟩
          · exact Or.inl hsp
          · exact Or.inr ⟨w', List.mem_cons_of_mem w hw', hcw'⟩

theorem mem_collapseWs {s : Str} {c : Char} (hc : c ∈ collapseWs s) :
    c = ' ' ∨ (c ∈ s ∧ pyIsSpace c = false) := by
  rcases mem_joinSpace hc with hsp | ⟨w, hw, hcw⟩
  · exact Or.inl hsp
  · exact Or.inr ((mem_pySplit hw).1 c hcw)

theorem dropWhile_idem {α : Type} (p : α → Bool) (l : List α) :
    List.dropWhile p (List.dropWhile p l) = List.dropWhile p l := by
  induction l with
  | nil => rfl
  | cons c cs ih =>
    by_cases h : p c = true
    · rw [List.dropWhile_cons_of_pos h, ih]
    · have h2 : p c = false := Bool.eq_false_iff.mpr h
      rw [List.dropWhile_cons_of_neg (by simp [h2]),
          List.dropWhile_cons_of_neg (by simp [h2])]

theorem trimStart_idem (s : Str) : trimStart (trimStart s) = trimStart s :=
  dropWhile_idem pyIsSpace s

theorem trimEnd_idem (s : Str) : trimEnd (trimEnd s) = trimEnd s := by
  unfold trimEnd
  rw [List.reverse_reverse, dropWhile_idem]

theorem dropWhile_eq_self_of_prefix {α : Type} {p : α → Bool} {v u : List α}
    (hpre : v <+: u) (hu : List.dropWhile p u = u) : List.dropWhile p v = v := by
  cases v with
  | nil => rfl
  | cons c v2 =>
    rcases hpre with ⟨t, ht⟩
    rw [← ht] at hu
    by_cases h : p c = true
    · exfalso
      rw [List.cons_append, List.dropWhile_cons_of_pos h] at hu
      have hlen := congrArg List.length hu
      have hle : (List.dropWhile p (v2 ++ t)).length ≤ (v2 ++ t).length :=
        (List.dropWhile_suffix p).sublist.length_le
      simp only [List.length_cons] at hlen
      omega
    · exact List.dropWhile_cons_of_neg (by simp [Bool.eq_false_iff.mpr h])

theorem trimEnd_prefix_of_self (s : Str) : trimEnd s <+: s := by
  have h := (List.dropWhile_suffix pyIsSpace (l := s.reverse)).reverse
  simpa [trimEnd] using h

theorem pyStrip_idem (s : Str) : pyStrip (pyStrip s) = pyStrip s := by
  unfold pyStrip
  have h1 : trimStart (trimEnd (trimStart s)) = trimEnd (trimStart s) :=
    dropWhile_eq_self_of_prefix (trimEnd_prefix_of_self (trimStart s)) (trimStart_idem s)
  rw [h1, trimEnd_idem]

theorem mem_trimStart {s : Str} {c : Char} (h : c ∈ trimStart s) : c ∈ s :=
  (List.dropWhile_suffix pyIsSpace).sublist.mem h

theorem mem_trimEnd {s : Str} {c : Char} (h : c ∈ trimEnd s) : c ∈ s :=
  (trimEnd_prefix_of_self s).sublist.mem h

theorem mem_pyStrip {s : Str} {c : Char} (h : c ∈ pyStrip s) : c ∈ s :=
  mem_trimStart (mem_trimEnd h)

theorem pyStrip_eq_nil_iff (s : Str) :
    pyStrip s = [] ↔ ∀ c ∈ s, pyIsSpace c = true := by
  constructor
  · intro h c hc
    have h2 : ∀ x ∈ trimStart s, pyIsSpace x = true := by
      intro x hx
      have h3 : (trimStart s).reverse.dropWhile pyIsSpace = [] := by
        have h4 : ((trimStart s).reverse.dropWhile pyIsSpace).reverse = [] := h
        simpa [List.reverse_eq_nil_iff] using h4
      exact List.dropWhile_eq_nil_iff.mp h3 x (List.mem_reverse.mpr hx)
    have hc2 : c ∈ List.takeWhile pyIsSpace s ++ List.dropWhile pyIsSpace s :=
      (List.takeWhile_append_dropWhile pyIsSpace s).symm ▸ hc
    rcases List.mem_append.mp hc2 with hc3 | hc3
    · exact List.mem_takeWhile_imp hc3
    · exact h2 c hc3
  · intro h
    have h1 : trimStart s = [] := List.dropWhile_eq_nil_iff.mpr h
    unfold pyStrip
    rw [h1]
    rfl

theorem charOfNat_toNat_upper {n : Nat} (h1 : 65 ≤ n) (h2 : n ≤ 90) :
    (Char.ofNat (n + 32)).toNat = n + 32 := by
  interval_cases n <;> decide

theorem charOfNat_toNat_latin {n : Nat} (h1 : 192 ≤ n) (h2 : n ≤ 222) :
    (Char.ofNat (n + 32)).toNat = n + 32 := by
  interval_cases n <;> decide

theorem pyLowerChar_toNat (c : Char) :
    (pyLowerChar c).toNat =
      if (65 ≤ c.toNat ∧ c.toNat ≤ 90) ∨
         (192 ≤ c.toNat ∧ c.toNat ≤ 222 ∧ c.toNat ≠ 215) then c.toNat + 32
      else c.toNat := by
  unfold pyLowerChar
  by_cases h1 : 65 ≤ c.toNat ∧ c.toNat ≤ 90
  · rw [if_pos h1, if_pos (Or.inl h1)]
    exact charOfNat_toNat_upper h1.1 h1.2
  · rw [if_neg h1]
    by_cases h2 : 192 ≤ c.toNat ∧ c.toNat ≤ 222 ∧ c.toNat ≠ 215
    · rw [if_pos h2, if_pos (Or.inr h2)]
      exact charOfNat_toNat_latin h2.1 h2.2.1
    · rw [if_neg h2, if_neg (by tauto)]

theorem pyLowerChar_fix {d : Char}
    (h : ¬((65 ≤ d.toNat ∧ d.toNat ≤ 90) ∨
           (192 ≤ d.toNat ∧ d.toNat ≤ 222 ∧ d.toNat ≠ 215))) :
    pyLowerChar d = d := by
  unfold pyLowerChar
  rw [if_neg (fun hc => h (Or.inl hc)), if_neg (fun hc => h (Or.inr hc))]

theorem pyLowerChar_idem (c : Char) :
    pyLowerChar (pyLowerChar c) = pyLowerChar c := by
  by_cases h : (65 ≤ c.toNat ∧ c.toNat ≤ 90) ∨
      (192 ≤ c.toNat ∧ c.toNat ≤ 222 ∧ c.toNat ≠ 215)
  · have ht : (pyLowerChar c).toNat = c.toNat + 32 := by
      rw [pyLowerChar_toNat, if_pos h]
    apply pyLowerChar_fix
    rw [ht]
    omega
  · rw [pyLowerChar_fix h, pyLowerChar_fix h]

theorem map_pyLowerChar_idem (s : Str) :
    (s.map pyLowerChar).map pyLowerChar = s.map pyLowerChar := by
  rw [List.map_map]
  exact List.map_congr_left fun a _ => pyLowerChar_idem a

theorem dashToHyphen_idem (c : Char) :
    dashToHyphen (dashToHyphen c) = dashToHyphen c := by
  unfold dashToHyphen
  by_cases h : isDashChar c = true
  · rw [if_pos h]
    decide
  · rw [if_neg h, if_neg h]

theorem map_dashToHyphen_idem (s : Str) :
    (s.map dashToHyphen).map dashToHyphen = s.map dashToHyphen := by
  rw [List.map_map]
  exact List.map_congr_left fun a _ => dashToHyphen_idem a

theorem filter_idem {α : Type} (p : α → Bool) (l : List α) :
    (l.filter p).filter p = l.filter p := by
  rw [List.filter_filter]
  exact List.filter_congr fun x _ => Bool.and_self (p x)

theorem normalize_for_comparison_eq (s : Str) :
    normalize_for_comparison s =
      pyStrip (stripLeadingNum (List.filter (fun c => !isRemovedPunct c)
        (collapseWs (stripLeadingBullet (List.filter (fun c => !isZeroWidth c)
          (List.map dashToHyphen (List.map pyLowerChar (stripInvalid s)))))))) := rfl

theorem mem_stripLeadingBullet {s : Str} {c : Char}
    (h : c ∈ stripLeadingBullet s) : c ∈ s := by
  cases s with
  | nil => simp [stripLeadingBullet] at h
  | cons a as =>
    simp only [stripLeadingBullet] at h
    by_cases hb : isBulletChar a = true
    · rw [if_pos hb] at h
      exact List.mem_cons_of_mem a ((List.dropWhile_suffix pyIsSpace).sublist.mem h)
    · rw [if_neg hb] at h
      exact h

theorem mem_stripLeadingNum {s : Str} {c : Char}
    (h : c ∈ stripLeadingNum s) : c ∈ s := by
  unfold stripLeadingNum at h
  split at h
  · split at h
    · next heq =>
      have h2 : c ∈ s.drop (s.takeWhile (fun c => c.isDigit)).length := by
        rw [heq]
        exact List.mem_cons_of_mem _ h
      exact (List.drop_suffix _ _).sublist.mem h2
    · exact h
  · exact h

theorem pyLowerChar_range_pres {c : Char}
    (h : c.toNat = 10 ∨ (32 ≤ c.toNat ∧ c.toNat ≤ 126)) :
    (pyLowerChar c).toNat = 10 ∨
      (32 ≤ (pyLowerChar c).toNat ∧ (pyLowerChar c).toNat ≤ 126) := by
  rw [pyLowerChar_toNat]
  split <;> omega

theorem dashToHyphen_range_pres {c : Char}
    (h : c.toNat = 10 ∨ (32 ≤ c.toNat ∧ c.toNat ≤ 126)) :
    (dashToHyphen c).toNat = 10 ∨
      (32 ≤ (dashToHyphen c).toNat ∧ (dashToHyphen c).toNat ≤ 126) := by
  unfold dashToHyphen
  by_cases hd : isDashChar c = true
  · simp only [isDashChar, Bool.or_eq_true, decide_eq_true_eq] at hd
    omega
  · rw [if_neg hd]
    exact h

theorem pyIsSpace_of_lf {c : Char} (h : c.toNat = 10) : pyIsSpace c = true := by
  simp only [pyIsSpace, h]
  decide

/-- C5 (amended): the invalid-character strip of the normalizer removes
the ASCII control characters, DEL and the code points 0x80..0xFF, so for
an all-ASCII input every character of the normalized output is printable
ASCII (0x20..0x7E); but code points at or above 0x100 are not stripped
(see the counterexample), so the output alphabet is not a subset of ASCII
for arbitrary input. -/
theorem normalize_ascii {s : Str} (h : ∀ c ∈ s, c.toNat < 128) :
    ∀ c ∈ normalize_for_comparison s, 32 ≤ c.toNat ∧ c.toNat ≤ 126 := by
  intro c hc
  rw [normalize_for_comparison_eq] at hc
  have h7 := mem_stripLeadingNum (mem_pyStrip hc)
  have h6 := (List.mem_filter.mp h7).1
  rcases mem_collapseWs h6 with hsp | ⟨h5, hnospace⟩
  · subst hsp
    decide
  · have h4 := mem_stripLeadingBullet h5
    have h3 := (List.mem_filter.mp h4).1
    rcases List.mem_map.mp h3 with ⟨d, hd, hcd⟩
    rcases List.mem_map.mp hd with ⟨e, he, hde⟩
    have heP : e.toNat = 10 ∨ (32 ≤ e.toNat ∧ e.toNat ≤ 126) := by
      have h1 := List.mem_filter.mp he
      have hlt := h e h1.1
      have hss : stripSet e = false := by simpa using h1.2
      simp only [stripSet, Bool.or_eq_false_iff, Bool.and_eq_false_iff,
        decide_eq_false_iff_not, not_le, not_lt] at hss
      omega
    have hdP := pyLowerChar_range_pres heP
    rw [hde] at hdP
    have hcP := dashToHyphen_range_pres hdP
    rw [hcd] at hcP
    rcases hcP with hlf | hok
    · exact absurd (pyIsSpace_of_lf hlf) (by simp [hnospace])
    · exact hok

theorem pyStrip_ne_nil_iff (s : Str) :
    pyStrip s ≠ [] ↔ ∃ c ∈ s, pyIsSpace c = false := by
  constructor
  · intro h
    by_contra hn
    push_neg at hn
    exact h ((pyStrip_eq_nil_iff s).mpr fun c hc => by
      have h2 := hn c hc
      simpa using h2)
  · rintro ⟨c, hc, hcf⟩ h
    have h2 := (pyStrip_eq_nil_iff s).mp h c hc
    rw [hcf] at h2
    exact Bool.false_ne_true h2

theorem pyStrip_append_word_ne {a b : Str} (hb : pyStrip b ≠ []) :
    pyStrip (a ++ ' ' :: b) ≠ [] := by
  rcases (pyStrip_ne_nil_iff b).mp hb with ⟨c, hc, hcf⟩
  exact (pyStrip_ne_nil_iff _).mpr
    ⟨c, List.mem_append.mpr (Or.inr (List.mem_cons_of_mem ' ' hc)), hcf⟩

theorem mergeStep_inv {st : List Str × Str} {c : Str}
    (h1 : ∀ x ∈ st.1, pyStrip x ≠ [])
    (h2 : st.2 ≠ [] → pyStrip st.2 ≠ []) :
    (∀ x ∈ (mergeStep st c).1, pyStrip x ≠ []) ∧
    ((mergeStep st c).2 ≠ [] → pyStrip (mergeStep st c).2 ≠ []) := by
  unfold mergeStep
  by_cases hc : pyStrip c = []
  · rw [if_pos hc]
    exact ⟨h1, h2⟩
  · rw [if_neg hc]
    by_cases hm : st.2 ≠ [] ∧ ¬ endsTermB st.2 = true
    · rw [if_pos hm]
      exact ⟨h1, fun _ => pyStrip_append_word_ne hc⟩
    · rw [if_neg hm]
      by_cases hne : st.2 ≠ []
      · rw [if_pos hne]
        refine ⟨?_, fun _ => hc⟩
        intro x hx
        rcases List.mem_append.mp hx with hx | hx
        · exact h1 x hx
        · rw [List.mem_singleton.mp hx]
          exact h2 hne
      · rw [if_neg hne]
        exact ⟨h1, fun _ => hc⟩

theorem merge_fold_inv (cs : List Str) :
    ∀ st : List Str × Str, (∀ x ∈ st.1, pyStrip x ≠ []) →
    (st.2 ≠ [] → pyStrip st.2 ≠ []) →
    (∀ x ∈ (cs.foldl mergeStep st).1, pyStrip x ≠ []) ∧
    ((cs.foldl mergeStep st).2 ≠ [] → pyStrip (cs.foldl mergeStep st).2 ≠ []) := by
  induction cs with
  | nil => intro st h1 h2; exact ⟨h1, h2⟩
  | cons c cs ih =>
    intro st h1 h2
    rcases mergeStep_inv (c := c) h1 h2 with ⟨h1x, h2x⟩
    exact ih (mergeStep st c) h1x h2x

theorem merge_fold_const {cs : List Str} (h : ∀ c ∈ cs, pyStrip c = []) :
    ∀ st : List Str × Str, cs.foldl mergeStep st = st := by
  induction cs with
  | nil => intro st; rfl
  | cons c cs ih =>
    intro st
    have hc := h c (List.mem_cons_self _ _)
    show List.foldl mergeStep (mergeStep st c) cs = st
    rw [show mergeStep st c = st by unfold mergeStep; rw [if_pos hc]]
    exact ih (fun x hx => h x (List.mem_cons_of_mem c hx)) st

theorem mergeStep_snd_suffix {st : List Str × Str} {c : Str} (hc : pyStrip c ≠ []) :
    c <:+ (mergeStep st c).2 ∧ (mergeStep st c).2 ≠ [] := by
  have hcne : c ≠ [] := by
    intro hnil
    exact hc (by rw [hnil]; rfl)
  unfold mergeStep
  rw [if_neg hc]
  by_cases hm : st.2 ≠ [] ∧ ¬ endsTermB st.2 = true
  · rw [if_pos hm]
    exact ⟨⟨st.2 ++ [' '], by simp⟩, by simp [hcne]⟩
  · rw [if_neg hm]
    by_cases hne : st.2 ≠ []
    · rw [if_pos hne]
      exact ⟨List.suffix_refl c, hcne⟩
    · rw [if_neg hne]
      exact ⟨List.suffix_refl c, hcne⟩

theorem merge_fold_last {cs : List Str} :
    ∀ (st : List Str × Str) (z : Str),
    (cs.filter (fun s => !(pyStrip s).isEmpty)).getLast? = some z →
    (cs.foldl mergeStep st).2 ≠ [] ∧ z <:+ (cs.foldl mergeStep st).2 := by
  induction cs with
  | nil => intro st z hz; simp at hz
  | cons c cs ih =>
    intro st z hz
    by_cases hc : pyStrip c = []
    · have hpred : (fun s => !(pyStrip s).isEmpty) c = false := by
        simp [hc]
      rw [List.filter_cons_of_neg (by simp [hpred])] at hz
      rw [List.foldl_cons, show mergeStep st c = st from by unfold mergeStep; rw [if_pos hc]]
      exact ih st z hz
    · have hpred : (fun s => !(pyStrip s).isEmpty) c = true := by
        simp [List.isEmpty_iff, hc]
      rw [List.filter_cons_of_pos (by simp [List.isEmpty_iff, hc])] at hz
      rcases hrest : cs.filter (fun s => !(pyStrip s).isEmpty) with _ | ⟨w, ws⟩
      · rw [hrest, List.getLast?_singleton] at hz
        have hzc : z = c := by
          injection hz with hz
          exact hz.symm
        have hall : ∀ x ∈ cs, pyStrip x = [] := by
          intro x hx
          by_contra hxne
          have hmem : x ∈ cs.filter (fun s => !(pyStrip s).isEmpty) :=
            List.mem_filter.mpr ⟨hx, by simp [List.isEmpty_iff, hxne]⟩
          rw [hrest] at hmem
          exact absurd hmem (List.not_mem_nil x)
        rw [List.foldl_cons, merge_fold_const hall, hzc]
        exact ⟨(mergeStep_snd_suffix hc).2, (mergeStep_snd_suffix hc).1⟩
      · rw [hrest, List.getLast?_cons_cons] at hz
        rw [List.foldl_cons]
        exact ih (mergeStep st c) z (by rw [hrest]; exact hz)

theorem matchStep_def (cm1 cm2 : List (Str × Str)) (s1 s2 : List Str)
    (st : MState) (k : Str) :
    matchStep cm1 cm2 s1 s2 st k =
      if k ∈ st.seen ∨ dictGet? cm2 k = none then st
      else if normalize_for_comparison (dictGetD cm1 k []) ≠
              normalize_for_comparison (dictGetD cm2 k []) then
        { st with seen := k :: st.seen }
      else if (s1.find? fun s => decide ((dictGetD cm1 k []) <:+: s)).getD [] = [] ∨
              (s2.find? fun s => decide ((dictGetD cm2 k []) <:+: s)).getD [] = [] then
        { st with seen := k :: st.seen }
      else if (s1.find? fun s => decide ((dictGetD cm1 k []) <:+: s)).getD [] ∈ st.matched ∨
              (s2.find? fun s => decide ((dictGetD cm2 k []) <:+: s)).getD [] ∈ st.matched then
        { st with seen := k :: st.seen }
      else
        { seen := k :: st.seen,
          matched := (s2.find? fun s => decide ((dictGetD cm2 k []) <:+: s)).getD [] ::
                     (s1.find? fun s => decide ((dictGetD cm1 k []) <:+: s)).getD [] ::
                     st.matched,
          count := st.count + 1,
          acc := st.acc ++
            [⟨st.count + 1, k, dictGetD cm1 k [], dictGetD cm2 k [],
              (s1.find? fun s => decide ((dictGetD cm1 k []) <:+: s)).getD [],
              (s2.find? fun s => decide ((dictGetD cm2 k []) <:+: s)).getD [],
              posGet s1 ((s1.find? fun s => decide ((dictGetD cm1 k []) <:+: s)).getD []),
              posGet s2 ((s2.find? fun s => decide ((dictGetD cm2 k []) <:+: s)).getD [])⟩] } :=
  rfl

theorem matchStep_cases (cm1 cm2 : List (Str × Str)) (s1 s2 : List Str)
    (st : MState) (k : Str) :
    ((matchStep cm1 cm2 s1 s2 st k).matched = st.matched ∧
     (matchStep cm1 cm2 s1 s2 st k).count = st.count ∧
     (matchStep cm1 cm2 s1 s2 st k).acc = st.acc) ∨
    (∃ m1 m2 : Str,
      m1 ∉ st.matched ∧ m2 ∉ st.matched ∧
      normalize_for_comparison (dictGetD cm1 k []) =
        normalize_for_comparison (dictGetD cm2 k []) ∧
      matchStep cm1 cm2 s1 s2 st k =
        { seen := k :: st.seen,
          matched := m2 :: m1 :: st.matched,
          count := st.count + 1,
          acc := st.acc ++ [⟨st.count + 1, k, dictGetD cm1 k [], dictGetD cm2 k [],
                            m1, m2, posGet s1 m1, posGet s2 m2⟩] }) := by
  rw [matchStep_def]
  by_cases hA : k ∈ st.seen ∨ dictGet? cm2 k = none
  · rw [if_pos hA]
    exact Or.inl ⟨rfl, rfl, rfl⟩
  · rw [if_neg hA]
    by_cases hB : normalize_for_comparison (dictGetD cm1 k []) ≠
        normalize_for_comparison (dictGetD cm2 k [])
    · rw [if_pos hB]
      exact Or.inl ⟨rfl, rfl, rfl⟩
    · rw [if_neg hB]
      by_cases hC : (s1.find? fun s => decide ((dictGetD cm1 k []) <:+: s)).getD [] = [] ∨
          (s2.find? fun s => decide ((dictGetD cm2 k []) <:+: s)).getD [] = []
      · rw [if_pos hC]
        exact Or.inl ⟨rfl, rfl, rfl⟩
      · rw [if_neg hC]
        by_cases hD : (s1.find? fun s => decide ((dictGetD cm1 k []) <:+: s)).getD [] ∈ st.matched ∨
            (s2.find? fun s => decide ((dictGetD cm2 k []) <:+: s)).getD [] ∈ st.matched
        · rw [if_pos hD]
          exact Or.inl ⟨rfl, rfl, rfl⟩
        · rw [if_neg hD]
          push_neg at hD
          exact Or.inr ⟨_, _, hD.1, hD.2, not_not.mp hB, rfl⟩

theorem fold_excl (cm1 cm2 : List (Str × Str)) (s1 s2 : List Str) (ks : List Str) :
    ∀ st : MState,
    (∀ m ∈ st.acc, m.sent1 ∈ st.matched ∧ m.sent2 ∈ st.matched) →
    st.acc.Pairwise distinctSents →
    (∀ m ∈ (ks.foldl (matchStep cm1 cm2 s1 s2) st).acc,
        m.sent1 ∈ (ks.foldl (matchStep cm1 cm2 s1 s2) st).matched ∧
        m.sent2 ∈ (ks.foldl (matchStep cm1 cm2 s1 s2) st).matched) ∧
    (ks.foldl (matchStep cm1 cm2 s1 s2) st).acc.Pairwise distinctSents := by
  induction ks with
  | nil => intro st h1 h2; exact ⟨h1, h2⟩
  | cons k ks ih =>
    intro st h1 h2
    rw [List.foldl_cons]
    rcases matchStep_cases cm1 cm2 s1 s2 st k with ⟨hm, hc, ha⟩ | ⟨m1, m2, hm1, hm2, hnorm, heq⟩
    · apply ih
      · intro m hmem
        rw [ha] at hmem
        rw [hm]
        exact h1 m hmem
      · rw [ha]
        exact h2
    · rw [heq]
      apply ih
      · intro m hmem
        rcases List.mem_append.mp hmem with hold | hnew
        · rcases h1 m hold with ⟨hs1, hs2⟩
          exact ⟨List.mem_cons_of_mem m2 (List.mem_cons_of_mem m1 hs1),
                 List.mem_cons_of_mem m2 (List.mem_cons_of_mem m1 hs2)⟩
        · rw [List.mem_singleton.mp hnew]
          exact ⟨List.mem_cons_of_mem m2 (List.mem_cons_self m1 _),
                 List.mem_cons_self m2 _⟩
      · rw [List.pairwise_append]
        refine ⟨h2, List.pairwise_singleton _ _, ?_⟩
        intro a ha b hb
        obtain rfl := List.mem_singleton.mp hb
        rcases h1 a ha with ⟨hs1, hs2⟩
        refine ⟨?_, ?_, ?_, ?_⟩
        · show a.sent1 ≠ m1
          exact fun h => hm1 (h ▸ hs1)
        · show a.sent1 ≠ m2
          exact fun h => hm2 (h ▸ hs1)
        · show a.sent2 ≠ m1
          exact fun h => hm1 (h ▸ hs2)
        · show a.sent2 ≠ m2
          exact fun h => hm2 (h ▸ hs2)

theorem fold_order (cm1 cm2 : List (Str × Str)) (s1 s2 : List Str) (ks : List Str) :
    ∀ st : MState, ∃ ms : List MatchRec,
      (ks.foldl (matchStep cm1 cm2 s1 s2) st).acc = st.acc ++ ms ∧
      (ks.foldl (matchStep cm1 cm2 s1 s2) st).count = st.count + ms.length ∧
      (ms.map MatchRec.key).Sublist ks ∧
      ms.map MatchRec.num = List.range' (st.count + 1) ms.length := by
  induction ks with
  | nil =>
    intro st
    exact ⟨[], by simp, by simp, by simp, by simp⟩
  | cons k ks ih =>
    intro st
    rw [List.foldl_cons]
    rcases matchStep_cases cm1 cm2 s1 s2 st k with ⟨hm, hc, ha⟩ | ⟨m1, m2, hm1, hm2, hnorm, heq⟩
    · rcases ih (matchStep cm1 cm2 s1 s2 st k) with ⟨ms, ha2, hc2, hsub, hnum⟩
      refine ⟨ms, ?_, ?_, hsub.cons k, ?_⟩
      · rw [ha2, ha]
      · rw [hc2, hc]
      · rw [hnum, hc]
    · rcases ih (matchStep cm1 cm2 s1 s2 st k) with ⟨ms, ha2, hc2, hsub, hnum⟩
      have hacc : (matchStep cm1 cm2 s1 s2 st k).acc =
          st.acc ++ [⟨st.count + 1, k, dictGetD cm1 k [], dictGetD cm2 k [],
                      m1, m2, posGet s1 m1, posGet s2 m2⟩] := by rw [heq]
      have hcnt : (matchStep cm1 cm2 s1 s2 st k).count = st.count + 1 := by rw [heq]
      rw [hacc] at ha2
      rw [hcnt] at hc2 hnum
      refine ⟨⟨st.count + 1, k, dictGetD cm1 k [], dictGetD cm2 k [],
               m1, m2, posGet s1 m1, posGet s2 m2⟩ :: ms, ?_, ?_, ?_, ?_⟩
      · rw [ha2, List.append_assoc]
        rfl
      · rw [hc2]
        simp only [List.length_cons]
        omega
      · simp only [List.map_cons]
        exact hsub.cons₂ k
      · simp only [List.map_cons, hnum, List.length_cons, List.range'_succ]

theorem fold_roundtrip (cm1 cm2 : List (Str × Str)) (s1 s2 : List Str) (ks : List Str) :
    ∀ st : MState,
    (∀ m ∈ st.acc, normalize_for_comparison m.origChunk1 =
        normalize_for_comparison m.origChunk2) →
    ∀ m ∈ (ks.foldl (matchStep cm1 cm2 s1 s2) st).acc,
      normalize_for_comparison m.origChunk1 = normalize_for_comparison m.origChunk2 := by
  induction ks with
  | nil => intro st h1; exact h1
  | cons k ks ih =>
    intro st h1
    rw [List.foldl_cons]
    rcases matchStep_cases cm1 cm2 s1 s2 st k with ⟨hm, hc, ha⟩ | ⟨m1, m2, hm1, hm2, hnorm, heq⟩
    · apply ih
      intro m hmem
      rw [ha] at hmem
      exact h1 m hmem
    · rw [heq]
      apply ih
      intro m hmem
      rcases List.mem_append.mp hmem with hold | hnew
      · exact h1 m hold
      · rw [List.mem_singleton.mp hnew]
        exact hnorm

theorem lexLe_total (a b : Str) : lexLe a b = true ∨ lexLe b a = true := by
  induction a generalizing b with
  | nil => left; rfl
  | cons x xs ih =>
    cases b with
    | nil => right; rfl
    | cons y ys =>
      by_cases h1 : x.toNat < y.toNat
      · left
        simp [lexLe, h1]
      · by_cases h2 : y.toNat < x.toNat
        · right
          simp [lexLe, h2]
        · rcases ih ys with h | h
          · left
            simp [lexLe, h1, h2, h]
          · right
            simp [lexLe, h1, h2, h]

theorem lexLe_trans (a b c : Str) (hab : lexLe a b = true) (hbc : lexLe b c = true) :
    lexLe a c = true := by
  induction a generalizing b c with
  | nil => rfl
  | cons x xs ih =>
    cases b with
    | nil => simp [lexLe] at hab
    | cons y ys =>
      cases c with
      | nil => simp [lexLe] at hbc
      | cons z zs =>
        simp only [lexLe] at hab hbc ⊢
        by_cases h1 : x.toNat < y.toNat
        · by_cases h2 : y.toNat < z.toNat
          · simp [show x.toNat < z.toNat by omega]
          · by_cases h3 : z.toNat < y.toNat
            · simp [h2, h3] at hbc
            · have hyz : y.toNat = z.toNat := by omega
              simp [show x.toNat < z.toNat by omega]
        · by_cases h1b : y.toNat < x.toNat
          · simp [h1, h1b] at hab
          · have hxy : x.toNat = y.toNat := by omega
            by_cases h2 : y.toNat < z.toNat
            · simp [show x.toNat < z.toNat by omega]
            · by_cases h3 : z.toNat < y.toNat
              · simp [h2, h3] at hbc
              · have hyz : y.toNat = z.toNat := by omega
                simp only [h1, if_false, h1b] at hab
                simp only [h2, if_false, h3] at hbc
                simp only [show ¬(x.toNat < z.toNat) by omega, if_false,
                  show ¬(z.toNat < x.toNat) by omega]
                exact ih ys zs (by simpa using hab) (by simpa using hbc)

theorem dictInsert_keys_nodup {β : Type} (d : List (Str × β)) (k : Str) (v : β)
    (h : (dictKeys d).Nodup) : (dictKeys (dictInsert d k v)).Nodup := by
  unfold dictInsert
  by_cases hc : d.any (fun p => decide (p.1 = k)) = true
  · rw [if_pos hc]
    have hkeys : dictKeys (d.map fun p => if p.1 = k then (k, v) else p) = dictKeys d := by
      unfold dictKeys
      rw [List.map_map]
      apply List.map_congr_left
      intro p _
      by_cases hp : p.1 = k
      · simp [hp]
      · simp [hp]
    rw [hkeys]
    exact h
  · rw [if_neg hc]
    unfold dictKeys
    rw [List.map_append]
    rw [List.nodup_append]
    refine ⟨h, List.nodup_singleton k, ?_⟩
    intro a ha hb
    rcases List.mem_map.mp ha with ⟨p, hp, hpa⟩
    rw [List.mem_singleton.mp hb] at hpa
    rw [List.any_eq_true] at hc
    push_neg at hc
    have := hc p hp
    simp [hpa] at this

theorem chunkFold_keys_nodup (chunks : List (Str × Str)) :
    ∀ d : List (Str × Str), (dictKeys d).Nodup →
    (dictKeys (chunks.foldl
      (fun m oc_nc => if oc_nc.2 ≠ [] then dictInsert m oc_nc.2 oc_nc.1 else m) d)).Nodup := by
  induction chunks with
  | nil => intro d h; exact h
  | cons cpair rest ih =>
    intro d h
    rw [List.foldl_cons]
    apply ih
    by_cases hne : cpair.2 ≠ []
    · rw [if_pos hne]
      exact dictInsert_keys_nodup d cpair.2 cpair.1 h
    · rw [if_neg hne]
      exact h

theorem buildChunksMap_keys_nodup (sentences : List Str) :
    (dictKeys (buildChunksMap sentences)).Nodup := by
  unfold buildChunksMap
  have hgen : ∀ d : List (Str × Str), (dictKeys d).Nodup →
      (dictKeys (sentences.foldl
        (fun m sentence => (get_chunks sentence 5).foldl
          (fun m oc_nc => if oc_nc.2 ≠ [] then dictInsert m oc_nc.2 oc_nc.1 else m) m)
        d)).Nodup := by
    induction sentences with
    | nil => intro d h; exact h
    | cons s rest ih =>
      intro d h
      rw [List.foldl_cons]
      exact ih _ (chunkFold_keys_nodup (get_chunks s 5) d h)
  exact hgen [] List.nodup_nil

theorem sortKeys_pairwise {l : List Str} (h : l.Nodup) :
    (sortKeys l).Pairwise (fun a b => lexLe a b = true ∧ a ≠ b) := by
  haveI htot : IsTotal Str lexR := ⟨lexLe_total⟩
  haveI htr : IsTrans Str lexR := ⟨lexLe_trans⟩
  have hs : (sortKeys l).Pairwise lexR := List.sorted_insertionSort lexR l
  have hn : (sortKeys l).Nodup := (List.perm_insertionSort lexR l).symm.nodup h
  exact hs.and hn

theorem find_matches_core_eq (s1 s2 : List Str) :
    find_matches_core s1 s2 =
      ((sortKeys (dictKeys (buildChunksMap s1))).foldl
        (matchStep (buildChunksMap s1) (buildChunksMap s2) s1 s2) ⟨[], [], 0, []⟩).acc :=
  rfl

/-- C1: Exclusivity invariant — over any two sentence lists, any two
distinct accepted Matches of the Matcher involve four pairwise-different
sentence texts: a sentence (identified by its text) used by an earlier
accepted Match is never used again by a later accepted Match, in either
document. -/
theorem find_matches_exclusivity (s1 s2 : List Str) :
    (find_matches_core s1 s2).Pairwise (fun m m2 =>
      m.sent1 ≠ m2.sent1 ∧ m.sent1 ≠ m2.sent2 ∧
      m.sent2 ≠ m2.sent1 ∧ m.sent2 ≠ m2.sent2) := by
  rw [find_matches_core_eq]
  exact (fold_excl (buildChunksMap s1) (buildChunksMap s2) s1 s2
      (sortKeys (dictKeys (buildChunksMap s1))) ⟨[], [], 0, []⟩
      (fun m hm => absurd hm (List.not_mem_nil m)) List.Pairwise.nil).2

/-- C2: Output ordering — the accepted Matches carry the sequential
numbers 1, 2, ... in emission order, and their normalized chunk keys are
strictly increasing in code-point lexicographic order (the iteration
order of the sorted key list), not in document order. -/
theorem find_matches_ordering (s1 s2 : List Str) :
    (find_matches_core s1 s2).map MatchRec.num =
      List.range' 1 (find_matches_core s1 s2).length ∧
    ((find_matches_core s1 s2).map MatchRec.key).Pairwise
      (fun a b => lexLe a b = true ∧ a ≠ b) := by
  rcases fold_order (buildChunksMap s1) (buildChunksMap s2) s1 s2
      (sortKeys (dictKeys (buildChunksMap s1))) ⟨[], [], 0, []⟩ with ⟨ms, ha, hc, hsub, hnum⟩
  have hcore : find_matches_core s1 s2 = ms := by
    rw [find_matches_core_eq, ha]
    rfl
  constructor
  · rw [hcore]
    exact hnum
  · rw [hcore]
    exact List.Pairwise.sublist hsub (sortKeys_pairwise (buildChunksMap_keys_nodup s1))

/-- C3: Round-trip acceptance precondition — every accepted Match has
character-equal re-normalizations of the two retrieved original chunks,
and a candidate key whose two retrieved chunks re-normalize differently
is skipped by `matchStep`: the accepted list, the counter and the
matched-sentence map are all left unchanged. -/
theorem find_matches_roundtrip (s1 s2 : List Str) :
    (∀ m ∈ find_matches_core s1 s2,
      normalize_for_comparison m.origChunk1 = normalize_for_comparison m.origChunk2) ∧
    (∀ (cm1 cm2 : List (Str × Str)) (st : MState) (k : Str),
      normalize_for_comparison (dictGetD cm1 k []) ≠
        normalize_for_comparison (dictGetD cm2 k []) →
      (matchStep cm1 cm2 s1 s2 st k).acc = st.acc ∧
      (matchStep cm1 cm2 s1 s2 st k).count = st.count ∧
      (matchStep cm1 cm2 s1 s2 st k).matched = st.matched) := by
  constructor
  · rw [find_matches_core_eq]
    exact fold_roundtrip _ _ _ _ _ _ (fun m hm => absurd hm (List.not_mem_nil m))
  · intro cm1 cm2 st k hne
    rw [matchStep_def]
    by_cases hA : k ∈ st.seen ∨ dictGet? cm2 k = none
    · rw [if_pos hA]
      exact ⟨rfl, rfl, rfl⟩
    · rw [if_neg hA, if_pos hne]
      exact ⟨rfl, rfl, rfl⟩

/-- Witness for C3: a concrete candidate key bound to `a` in the first
index and to `b` in the second is rejected without producing a match. -/
theorem find_matches_roundtrip_witness :
    (matchStep [(strLit "k", strLit "a")] [(strLit "k", strLit "b")] [] []
      ⟨[], [], 0, []⟩ (strLit "k")).acc = [] ∧
    (matchStep [(strLit "k", strLit "a")] [(strLit "k", strLit "b")] [] []
      ⟨[], [], 0, []⟩ (strLit "k")).count = 0 ∧
    (matchStep [(strLit "k", strLit "a")] [(strLit "k", strLit "b")] [] []
      ⟨[], [], 0, []⟩ (strLit "k")).matched = [] := by
  have h := (find_matches_roundtrip [] []).2 [(strLit "k", strLit "a")]
    [(strLit "k", strLit "b")] ⟨[], [], 0, []⟩ (strLit "k") (by decide)
  exact ⟨h.1, h.2.1, h.2.2⟩

/-- C10: the matched-sentence tracking is shared between the two
documents and keyed by sentence text alone: across one run, at most one
accepted Match touches any given sentence text `t`, whether `t` occurs as
the matched sentence of document 1, of document 2, or (verbatim) of both;
textually identical sentences count as one for exclusivity. -/
theorem find_matches_shared_tracking (s1 s2 : List Str) (t : Str) :
    ((find_matches_core s1 s2).filter
      (fun m => decide (m.sent1 = t ∨ m.sent2 = t))).length ≤ 1 := by
  have hpw : (find_matches_core s1 s2).Pairwise distinctSents := by
    rw [find_matches_core_eq]
    exact (fold_excl (buildChunksMap s1) (buildChunksMap s2) s1 s2
        (sortKeys (dictKeys (buildChunksMap s1))) ⟨[], [], 0, []⟩
        (fun m hm => absurd hm (List.not_mem_nil m)) List.Pairwise.nil).2
  have hpf := hpw.filter (fun m => decide (m.sent1 = t ∨ m.sent2 = t))
  rcases hl : (find_matches_core s1 s2).filter
      (fun m => decide (m.sent1 = t ∨ m.sent2 = t)) with _ | ⟨a, rest⟩
  · rw [hl]
    simp
  · rcases rest with _ | ⟨b, rest2⟩
    · rw [hl]
      simp
    · exfalso
      rw [hl] at hpf
      have hab : distinctSents a b :=
        (List.pairwise_cons.mp hpf).1 b (List.mem_cons_self b rest2)
      have haf : a ∈ (find_matches_core s1 s2).filter
          (fun m => decide (m.sent1 = t ∨ m.sent2 = t)) := by
        rw [hl]
        exact List.mem_cons_self a _
      have hbf : b ∈ (find_matches_core s1 s2).filter
          (fun m => decide (m.sent1 = t ∨ m.sent2 = t)) := by
        rw [hl]
        exact List.mem_cons_of_mem a (List.mem_cons_self b rest2)
      have haP : a.sent1 = t ∨ a.sent2 = t :=
        of_decide_eq_true (List.mem_filter.mp haf).2
      have hbP : b.sent1 = t ∨ b.sent2 = t :=
        of_decide_eq_true (List.mem_filter.mp hbf).2
      rcases hab with ⟨h11, h12, h21, h22⟩
      rcases haP with ha1 | ha2 <;> rcases hbP with hb1 | hb2
      · exact h11 (ha1.trans hb1.symm)
      · exact h12 (ha1.trans hb2.symm)
      · exact h21 (ha2.trans hb1.symm)
      · exact h22 (ha2.trans hb2.symm)

/-- C4 counterexample: `normalize_for_comparison` is not idempotent — for
the input `1.2.x` the first pass strips only the first leading
`<digits>.` prefix, and a second pass strips another one. -/
theorem normalize_not_idempotent :
    normalize_for_comparison (normalize_for_comparison (strLit "1.2.x")) ≠
      normalize_for_comparison (strLit "1.2.x") := by decide

/-- C4 (amended): the steps invalid-strip, lowercase, dash replacement,
zero-width removal, whitespace collapse, punctuation removal and final
trim are each idempotent; but the leading-bullet strip and the
leading-number strip are not (each removes only one prefix per call), and
the punctuation removal can leave a double space that only a second
whitespace collapse removes, so the composite normalizer is not
idempotent. -/
theorem normalize_idempotency_profile :
    (∀ s : Str, stripInvalid (stripInvalid s) = stripInvalid s) ∧
    (∀ s : Str, (s.map pyLowerChar).map pyLowerChar = s.map pyLowerChar) ∧
    (∀ s : Str, (s.map dashToHyphen).map dashToHyphen = s.map dashToHyphen) ∧
    (∀ s : Str, (s.filter (fun c => !isZeroWidth c)).filter (fun c => !isZeroWidth c) =
      s.filter (fun c => !isZeroWidth c)) ∧
    (∀ s : Str, collapseWs (collapseWs s) = collapseWs s) ∧
    (∀ s : Str, (s.filter (fun c => !isRemovedPunct c)).filter (fun c => !isRemovedPunct c) =
      s.filter (fun c => !isRemovedPunct c)) ∧
    (∀ s : Str, pyStrip (pyStrip s) = pyStrip s) ∧
    stripLeadingBullet (stripLeadingBullet (strLit "**x")) ≠ stripLeadingBullet (strLit "**x") ∧
    stripLeadingNum (stripLeadingNum (strLit "12.3.x")) ≠ stripLeadingNum (strLit "12.3.x") ∧
    normalize_for_comparison (normalize_for_comparison (strLit "a , b")) ≠
      normalize_for_comparison (strLit "a , b") :=
  ⟨fun s => filter_idem _ s, map_pyLowerChar_idem, map_dashToHyphen_idem,
   fun s => filter_idem _ s, collapseWs_idem, fun s => filter_idem _ s,
   pyStrip_idem, by decide, by decide, by decide⟩

/-- C5 counterexample: normalization is not ASCII-only — the character
U+0101 is outside the stripped byte range `0x80..0xFF` and survives
`normalize_for_comparison` unchanged, so the output can contain a
character with code point at least 0x80. -/
theorem normalize_not_ascii_only :
    normalize_for_comparison (strLit "ā") = strLit "ā" ∧
    128 ≤ Char.toNat 'ā' := by decide

/-- Witness for C5: a concrete all-ASCII input whose normalized output is
printable ASCII. -/
theorem normalize_ascii_witness :
    (∀ c ∈ strLit "Ab, C1. x", c.toNat < 128) ∧
    (∀ c ∈ normalize_for_comparison (strLit "Ab, C1. x"),
      32 ≤ c.toNat ∧ c.toNat ≤ 126) :=
  ⟨by decide, normalize_ascii (by decide)⟩

/-- C6 (amended): a color line is emitted exactly when at least one of
the two looked-up color halves is truthy (a non-`None`, nonempty name);
blackness is not checked — the name `schwarz` (pure black) is printed
like any other color, and a missing half prints as `standard`. -/
theorem colorLine_emission (label : Str) (fgbg : Option Str × Option Str) :
    (colorLineFor label fgbg = [] ↔
      pyTruthy fgbg.1 = false ∧ pyTruthy fgbg.2 = false) ∧
    colorLineFor (strLit "1") (some (strLit "schwarz"), none) =
      strLit "Farbe in Datei 1: schwarz, Hintergrund: standard\n" := by
  constructor
  · constructor
    · intro h
      by_cases ht : (pyTruthy fgbg.1 || pyTruthy fgbg.2) = true
      · exfalso
        unfold colorLineFor at h
        rw [if_pos ht] at h
        rcases List.append_eq_nil.mp h with ⟨_, hF⟩
        exact absurd hF (by decide)
      · simp only [Bool.or_eq_true] at ht
        push_neg at ht
        exact ⟨Bool.eq_false_iff.mpr ht.1, Bool.eq_false_iff.mpr ht.2⟩
    · rintro ⟨h1, h2⟩
      unfold colorLineFor
      rw [if_neg (by simp [h1, h2])]
  · decide

set_option maxRecDepth 10000 in
/-- C6 counterexample: with the color lookup resolving the matched chunk
of document 1 to pure black (`schwarz`), the full report still contains
the color line displaying it — a pure-black foreground is not
suppressed. -/
theorem black_color_displayed :
    strLit "Farbe in Datei 1: schwarz, Hintergrund: standard\n" <:+:
      find_matches [(strLit "a b c d e.", (some (strLit "schwarz"), none))] []
        (strLit "f1") (strLit "f2") (strLit "a b c d e.") (strLit "a b c d e.") := by
  decide

theorem get_chunks_eq (text : Str) (n : Nat) :
    get_chunks text n =
      (List.range ((pySplit text).length + 1 - n)).map (fun i =>
        (joinSpace (((pySplit text).drop i).take n),
         joinSpace (((pySplit (normalize_for_comparison text)).drop i).take n))) :=
  rfl

/-- C7: Chunker windows — with `w` the whitespace word count of the
sentence: if `w < n` the chunk list is empty; otherwise it has exactly
`w - n + 1` entries and entry `i` pairs the original `n`-word window at
start index `i` with the window at the same index `i` in the word list of
the normalized whole sentence (truncated if that list is shorter). -/
theorem get_chunks_windows (text : Str) (n : Nat) :
    ((pySplit text).length < n → get_chunks text n = []) ∧
    (n ≤ (pySplit text).length →
      (get_chunks text n).length = (pySplit text).length - n + 1 ∧
      ∀ i, i < (pySplit text).length - n + 1 →
        (get_chunks text n)[i]? =
          some (joinSpace (((pySplit text).drop i).take n),
                joinSpace (((pySplit (normalize_for_comparison text)).drop i).take n))) := by
  constructor
  · intro h
    rw [get_chunks_eq]
    rw [show (pySplit text).length + 1 - n = 0 by omega]
    rfl
  · intro h
    constructor
    · rw [get_chunks_eq, List.length_map, List.length_range]
      omega
    · intro i hi
      rw [get_chunks_eq, List.getElem?_map,
        List.getElem?_range (show i < (pySplit text).length + 1 - n by omega)]
      rfl

/-- Witness for C7: a three-word sentence yields no chunks; a six-word
sentence yields two windows, the second starting at index 1. -/
theorem get_chunks_windows_witness :
    get_chunks (strLit "a b c") 5 = [] ∧
    (get_chunks (strLit "a b c d e f") 5).length = 2 ∧
    (get_chunks (strLit "a b c d e f") 5)[1]? =
      some (joinSpace (((pySplit (strLit "a b c d e f")).drop 1).take 5),
            joinSpace (((pySplit (normalize_for_comparison
              (strLit "a b c d e f"))).drop 1).take 5)) := by
  refine ⟨(get_chunks_windows (strLit "a b c") 5).1 (by decide), ?_, ?_⟩
  · rw [((get_chunks_windows (strLit "a b c d e f") 5).2 (by decide)).1]
    decide
  · exact ((get_chunks_windows (strLit "a b c d e f") 5).2 (by decide)).2 1 (by decide)

theorem extract_sentences_eq (text : Str) :
    extract_sentences text =
      (if ((candidatesOf text).foldl mergeStep ([], [])).2 ≠ [] then
        ((candidatesOf text).foldl mergeStep ([], [])).1 ++
          [((candidatesOf text).foldl mergeStep ([], [])).2]
      else ((candidatesOf text).foldl mergeStep ([], [])).1) :=
  rfl

/-- C8: Sentence splitter emission — every emitted Sentence contains a
non-whitespace character (whitespace-only candidates are dropped before
merging), and when the candidate list has a last non-whitespace unit, a
final Sentence is emitted and that trailing unit is a suffix of it, even
without terminal punctuation. -/
theorem extract_sentences_spec (text : Str) :
    (∀ s ∈ extract_sentences text, ∃ c ∈ s, pyIsSpace c = false) ∧
    (∀ z, ((candidatesOf text).filter (fun s => !(pyStrip s).isEmpty)).getLast? = some z →
      ∃ w, (extract_sentences text).getLast? = some w ∧ z <:+ w) := by
  constructor
  · intro s hs
    have hinv := merge_fold_inv (candidatesOf text) ([], [])
      (fun x hx => absurd hx (List.not_mem_nil x)) (fun hne => absurd rfl hne)
    rw [extract_sentences_eq] at hs
    by_cases hne : ((candidatesOf text).foldl mergeStep ([], [])).2 ≠ []
    · rw [if_pos hne] at hs
      rcases List.mem_append.mp hs with hs | hs
      · exact (pyStrip_ne_nil_iff s).mp (hinv.1 s hs)
      · rw [List.mem_singleton.mp hs]
        exact (pyStrip_ne_nil_iff _).mp (hinv.2 hne)
    · rw [if_neg hne] at hs
      exact (pyStrip_ne_nil_iff s).mp (hinv.1 s hs)
  · intro z hz
    rcases merge_fold_last ([], []) z hz with ⟨hne, hsuf⟩
    refine ⟨((candidatesOf text).foldl mergeStep ([], [])).2, ?_, hsuf⟩
    rw [extract_sentences_eq, if_pos hne]
    exact List.getLast?_concat _

/-- Witness for C8: the unpunctuated trailing fragment `Und weiter` is
emitted as a final sentence containing a non-whitespace character. -/
theorem extract_sentences_spec_witness :
    (∃ c ∈ strLit "Und weiter", pyIsSpace c = false) ∧
    (∃ w, (extract_sentences (strLit "Und weiter")).getLast? = some w ∧
      strLit "Und weiter" <:+ w) := by
  constructor
  · exact (extract_sentences_spec (strLit "Und weiter")).1 (strLit "Und weiter") (by decide)
  · exact (extract_sentences_spec (strLit "Und weiter")).2 (strLit "Und weiter") (by decide)

theorem find_matches_eq (colors1 colors2 : List (Str × (Option Str × Option Str)))
    (name1 name2 c1 c2 : Str) :
    find_matches colors1 colors2 name1 name2 c1 c2 =
      ((find_matches_core (extract_sentences c1) (extract_sentences c2)).map
        (matchBlock colors1 colors2 name1 name2
          (extract_sentences c1) (extract_sentences c2))).flatten ++
      summaryText (find_matches_core (extract_sentences c1)
        (extract_sentences c2)).length :=
  rfl

/-- C9: Zero-match report — when the Matcher accepts no matches the
report content is exactly the explicit no-matches message (the report
file itself is created/truncated at the start of the run, so this is its
full content); when at least one match is accepted the report instead
ends with the summary line carrying the count of accepted matches. -/
theorem find_matches_report (colors1 colors2 : List (Str × (Option Str × Option Str)))
    (name1 name2 c1 c2 : Str) :
    (find_matches_core (extract_sentences c1) (extract_sentences c2) = [] →
      find_matches colors1 colors2 name1 name2 c1 c2 =
        strLit "Keine Übereinstimmungen gefunden.\n") ∧
    (find_matches_core (extract_sentences c1) (extract_sentences c2) ≠ [] →
      natStr (find_matches_core (extract_sentences c1) (extract_sentences c2)).length ++
        strLit " einzigartige Übereinstimmungen gefunden.\n" <:+
        find_matches colors1 colors2 name1 name2 c1 c2) := by
  constructor
  · intro h
    rw [find_matches_eq, h]
    rfl
  · intro h
    rw [find_matches_eq]
    have hlen : ¬((find_matches_core (extract_sentences c1)
        (extract_sentences c2)).length = 0) := by
      simpa using h
    unfold summaryText
    rw [if_neg hlen]
    exact List.suffix_append _ _

/-- Witness for C9: an empty first document yields the no-matches report;
two identical five-word documents yield a report ending in the count
line. -/
theorem find_matches_report_witness :
    find_matches [] [] (strLit "f1") (strLit "f2") (strLit "") (strLit "a b c d e.") =
      strLit "Keine Übereinstimmungen gefunden.\n" ∧
    natStr (find_matches_core (extract_sentences (strLit "a b c d e."))
        (extract_sentences (strLit "a b c d e."))).length ++
      strLit " einzigartige Übereinstimmungen gefunden.\n" <:+
      find_matches [] [] (strLit "f1") (strLit "f2")
        (strLit "a b c d e.") (strLit "a b c d e.") := by
  constructor
  · exact (find_matches_report [] [] (strLit "f1") (strLit "f2")
      (strLit "") (strLit "a b c d e.")).1 (by decide)
  · exact (find_matches_report [] [] (strLit "f1") (strLit "f2")
      (strLit "a b c d e.") (strLit "a b c d e.")).2 (by decide)
